import Mathlib

set_option maxRecDepth 4000

/-!
Shallow embedding of the bitcursor crate.

The storage wrapped by a `BitCursor` is represented by its MSB-first
bit-level view (the result of `borrow_bits` / `borrow_bits_mut`), since
every cursor operation in `src/io/bit_cursor.rs` first computes that view
and then works in terms of bit offsets into it.  Rust panics (slicing out
of range, failed `assert!`) are modelled by `Option` with `none` standing
for the abort; `std::io::Result` is modelled by `Except IoErrorKind`.
-/

/-- MSB-first bit view of a single byte (bit 7 first), as bitvec's `Msb0`
ordering produces it. -/
def byteToBits (b : Nat) : List Bool :=
  (List.range 8).map (fun j => Nat.testBit b (7 - j))

/-- MSB-first bit-level view of a byte sequence (`view_bits::<Msb0>()`). -/
def bytesToBits (bytes : List Nat) : List Bool :=
  (bytes.map byteToBits).flatten

/-- Error classification carried by the recoverable seek failure
(`std::io::ErrorKind::InvalidInput`). -/
inductive IoErrorKind where
  | invalidInput
deriving DecidableEq, Repr

instance : DecidableEq (Except IoErrorKind Nat) := fun a b =>
  match a, b with
  | .ok x, .ok y =>
    if h : x = y then isTrue (by rw [h]) else isFalse (fun hh => h (Except.ok.inj hh))
  | .error x, .error y =>
    if h : x = y then isTrue (by rw [h]) else isFalse (fun hh => h (Except.error.inj hh))
  | .ok _, .error _ => isFalse (fun hh => Except.noConfusion hh)
  | .error _, .ok _ => isFalse (fun hh => Except.noConfusion hh)

/-- `std::io::SeekFrom`: `Start` carries a `u64`, `End` and `Current` an
`i64`. -/
inductive SeekFrom where
  | start (n : Nat)
  | fromEnd (n : Int)
  | current (n : Int)
deriving DecidableEq, Repr

/-- `BitCursor<T>` from `src/io/bit_cursor.rs`: the wrapped storage
(represented by its bit-level view) and the bit position `pos : u64`. -/
structure BitCursor where
  inner : List Bool
  pos : Nat
deriving DecidableEq, Repr

/-- `BitCursor::new`: wraps the buffer with initial position 0. -/
def BitCursor.new (inner : List Bool) : BitCursor :=
  { inner := inner, pos := 0 }

/-- `BitCursor::position`. -/
def BitCursor.position (c : BitCursor) : Nat := c.pos

/-- `BitCursor::set_position`: unchecked assignment of the bit position. -/
def BitCursor.set_position (c : BitCursor) (p : Nat) : BitCursor :=
  { c with pos := p }

/-- `BitCursor::split`: `borrow_bits().split_at(pos)`.  `split_at` panics
when `pos` exceeds the view's length, modelled by `none`. -/
def BitCursor.split (c : BitCursor) : Option (List Bool × List Bool) :=
  if c.pos ≤ c.inner.length then
    some (c.inner.take c.pos, c.inner.drop c.pos)
  else none

/-- `BitCursor::split_mut`: `borrow_bits_mut().split_at_mut(pos)` — the
same partition as `split`, with both halves mutable. -/
def BitCursor.split_mut (c : BitCursor) : Option (List Bool × List Bool) :=
  if c.pos ≤ c.inner.length then
    some (c.inner.take c.pos, c.inner.drop c.pos)
  else none

/-- `u64::checked_add_signed`: `base + off` when the exact result fits in
`u64`, otherwise `none`. -/
def checkedAddSigned (base : Nat) (off : Int) : Option Nat :=
  if 0 ≤ (base : Int) + off ∧ (base : Int) + off < 2 ^ 64 then
    some ((base : Int) + off).toNat
  else none

/-- Shared `Current`/`End` arm of `bit_seek`: on a successful checked add
the position is updated and returned, otherwise an `InvalidInput` error is
returned and the cursor is untouched. -/
def bitSeekFrom (c : BitCursor) (base : Nat) (off : Int) :
    Except IoErrorKind Nat × BitCursor :=
  match checkedAddSigned base off with
  | some n => (.ok n, { c with pos := n })
  | none => (.error .invalidInput, c)

/-- `BitSeek::bit_seek` from `src/io/bit_cursor.rs`. -/
def BitCursor.bit_seek (c : BitCursor) (sf : SeekFrom) :
    Except IoErrorKind Nat × BitCursor :=
  match sf with
  | .start n => (.ok n, { c with pos := n })
  | .fromEnd n => bitSeekFrom c c.inner.length n
  | .current n => bitSeekFrom c c.pos n

/-- `Seek::seek` from `src/io/bit_cursor.rs`: multiplies the offset by 8
and delegates to `bit_seek`. -/
def BitCursor.seek (c : BitCursor) (sf : SeekFrom) :
    Except IoErrorKind Nat × BitCursor :=
  match sf with
  | .start n => c.bit_seek (.start (n * 8))
  | .fromEnd n => c.bit_seek (.fromEnd (n * 8))
  | .current n => c.bit_seek (.current (n * 8))

/-- Loop body of `Read::read`'s inner packing loop:
`if *bit { byte |= 1 << (7 - j) }`, folded over the chunk with `j` the
enumeration index and `byte` the accumulator. -/
def packGo : List Bool → Nat → Nat → Nat
  | [], _, byte => byte
  | bit :: rest, j, byte =>
    packGo rest (j + 1) (if bit then byte ||| (1 <<< (7 - j)) else byte)

/-- Packs one chunk of at most 8 bits into a byte, MSB-first, exactly as
the inner loop of `Read::read` does starting from `byte = 0`. -/
def packChunk (chunk : List Bool) : Nat := packGo chunk 0 0

/-- Fuel-indexed splitting of a bit sequence into successive chunks of 8
(the last possibly shorter), mirroring `BitSlice::chunks(8)`. -/
def chunksOf8Go : Nat → List Bool → List (List Bool)
  | 0, _ => []
  | _ + 1, [] => []
  | n + 1, b :: rest => ((b :: rest).take 8) :: chunksOf8Go n ((b :: rest).drop 8)

/-- `BitSlice::chunks(8)` as a list of chunks. -/
def chunksOf8 (l : List Bool) : List (List Bool) := chunksOf8Go l.length l

/-- `Read::read` from `src/io/bit_cursor.rs`: slices the view from `pos`
(panics, i.e. `none`, when `pos` exceeds the bit length), packs up to
`bufLen` chunks of 8 bits into bytes MSB-first, and advances `pos` by
`8 × bytes_read`.  Returns `(bytes_read, bytes produced, cursor)`. -/
def BitCursor.read (c : BitCursor) (bufLen : Nat) :
    Option (Nat × List Nat × BitCursor) :=
  if c.pos ≤ c.inner.length then
    let remaining := c.inner.drop c.pos
    let bytes := ((chunksOf8 remaining).take bufLen).map packChunk
    some (bytes.length, bytes, { c with pos := c.pos + bytes.length * 8 })
  else none

/-- Modelled from the spec: the slice-level `BitRead` implementation for a
bit slice is not under src (only the cursor's delegation to it is); §4.5
says it copies `min(dest.len(), remaining bits)` bits into the front of
`dest`.  Returns the count and the updated destination. -/
def sliceReadBits (slice dest : List Bool) : Nat × List Bool :=
  let n := min dest.length slice.length
  (n, slice.take n ++ dest.drop n)

/-- Modelled from the spec: the slice-level `BitWrite` implementation for
a mutable bit slice is not under src; §4.6 says it copies
`min(source.len(), remaining space)` bits into the front of the slice.
Returns the count and the updated slice (its length is unchanged). -/
def sliceWriteBits (slice source : List Bool) : Nat × List Bool :=
  let n := min source.length slice.length
  (n, source.take n ++ slice.drop n)

/-- `BitRead::read_bits` from `src/io/bit_cursor.rs`: reads through
`split().1` with the slice-level bounded copy and advances `pos` by the
count copied. -/
def BitCursor.read_bits (c : BitCursor) (dest : List Bool) :
    Option (Nat × List Bool × BitCursor) :=
  match c.split with
  | none => none
  | some (_, after) =>
    let r := sliceReadBits after dest
    some (r.1, r.2, { c with pos := c.pos + r.1 })

/-- `BitWrite::write_bits` from `src/io/bit_cursor.rs`: writes through
`split_mut().1` with the slice-level bounded copy and advances `pos` by
the count written.  The storage becomes the untouched `before` half
followed by the updated `after` half. -/
def BitCursor.write_bits (c : BitCursor) (source : List Bool) :
    Option (Nat × BitCursor) :=
  match c.split_mut with
  | none => none
  | some (before, after) =>
    let r := sliceWriteBits after source
    some (r.1, { inner := before ++ r.2, pos := c.pos + r.1 })

/-- `Bits` (external shareable immutable bit buffer): per the spec's data
model, a (backing storage, start-bit-offset, bit-length) triple.  The
backing storage is kept as bytes because `chunk` re-views it with
`BitSlice::from_slice`. -/
structure Bits where
  inner : List Nat
  bit_start : Nat
  bit_len : Nat
deriving DecidableEq, Repr

/-- Modelled from the spec: `Bits::inc_start` is not under src; §3 says
advancing moves `start` forward by `n` and decreases `length` by `n`. -/
def Bits.inc_start (b : Bits) (count : Nat) : Bits :=
  { b with bit_start := b.bit_start + count, bit_len := b.bit_len - count }

/-- `remaining` for `Bits` from `src/buf/bit_buf_impls.rs`. -/
def Bits.remaining (b : Bits) : Nat := b.bit_len

/-- `advance` for `Bits` from `src/buf/bit_buf_impls.rs`: the failed
`assert!(count <= remaining)` panic is modelled by `none`. -/
def Bits.advance (b : Bits) (count : Nat) : Option Bits :=
  if count ≤ b.remaining then some (b.inc_start count) else none

/-- `chunk` for `Bits` from `src/buf/bit_buf_impls.rs`:
`BitSlice::from_slice(&inner)[bit_start .. bit_start + bit_len]`. -/
def Bits.chunk (b : Bits) : List Bool :=
  ((bytesToBits b.inner).drop b.bit_start).take b.bit_len

/-- `BitsMut` (external shareable mutable bit buffer): same window triple
as `Bits` per the spec's data model. -/
structure BitsMut where
  inner : List Nat
  bit_start : Nat
  bit_len : Nat
deriving DecidableEq, Repr

/-- Modelled from the spec: `BitsMut::advance_mut` is not under src; §3
and §4.1 say the mutable variant's own advance primitive performs the same
window bookkeeping (start forward by `n`, length down by `n`). -/
def BitsMut.advance_mut (b : BitsMut) (count : Nat) : BitsMut :=
  { b with bit_start := b.bit_start + count, bit_len := b.bit_len - count }

/-- Modelled from the spec: `BitsMut::len` is not under src; §4.1 says
`remaining()` is always the stored window length. -/
def BitsMut.len (b : BitsMut) : Nat := b.bit_len

/-- `remaining` for `BitsMut` from `src/buf/bit_buf_impls.rs`: `self.len()`. -/
def BitsMut.remaining (b : BitsMut) : Nat := b.len

/-- `advance` for `BitsMut` from `src/buf/bit_buf_impls.rs`: asserts
`count <= remaining` (panic modelled by `none`), then `advance_mut`. -/
def BitsMut.advance (b : BitsMut) (count : Nat) : Option BitsMut :=
  if count ≤ b.remaining then some (b.advance_mut count) else none

/-- `chunk` for `BitsMut` from `src/buf/bit_buf_impls.rs`. -/
def BitsMut.chunk (b : BitsMut) : List Bool :=
  ((bytesToBits b.inner).drop b.bit_start).take b.bit_len

/-- C2: for every position `p ≤` total bit length, `split()` returns
`(before, after)` with `before` of length `p`, `after` of the remaining
length, and `before ++ after` reproducing the full bit-level view. -/
theorem split_partition (c : BitCursor) (h : c.pos ≤ c.inner.length) :
    ∃ before after, c.split = some (before, after) ∧
      before.length = c.pos ∧
      after.length = c.inner.length - c.pos ∧
      before ++ after = c.inner := by
  refine ⟨c.inner.take c.pos, c.inner.drop c.pos, ?_, ?_, ?_, ?_⟩
  · simp [BitCursor.split, h]
  · simp [List.length_take, Nat.min_eq_left h]
  · simp [List.length_drop]
  · exact List.take_append_drop _ _

/-- Witness for C2 at a concrete cursor. -/
theorem split_partition_witness :
    (BitCursor.mk (bytesToBits [243, 170]) 4).pos ≤
        (BitCursor.mk (bytesToBits [243, 170]) 4).inner.length ∧
      ∃ before after,
        (BitCursor.mk (bytesToBits [243, 170]) 4).split = some (before, after) ∧
        before.length = (BitCursor.mk (bytesToBits [243, 170]) 4).pos ∧
        after.length = (BitCursor.mk (bytesToBits [243, 170]) 4).inner.length - 4 ∧
        before ++ after = (BitCursor.mk (bytesToBits [243, 170]) 4).inner :=
  ⟨by decide, split_partition (BitCursor.mk (bytesToBits [243, 170]) 4) (by decide)⟩

/-- Length preservation of the slice-level bounded write. -/
theorem sliceWriteBits_length (slice source : List Bool) :
    ((sliceWriteBits slice source).2).length = slice.length := by
  simp [sliceWriteBits]

/-- C1: for every position `p ≤` total bit length, `split_mut()` returns
two mutable views covering the disjoint ranges `[0, p)` and `[p, len)` of
the storage, and writing any bit pattern through one half (via the
slice-level bounded write) never changes any bit in the other half's
range. -/
theorem split_mut_disjoint (c : BitCursor) (h : c.pos ≤ c.inner.length) :
    ∃ before after, c.split_mut = some (before, after) ∧
      before = c.inner.take c.pos ∧
      after = c.inner.drop c.pos ∧
      before.length = c.pos ∧
      before ++ after = c.inner ∧
      (∀ sb : List Bool,
        ((sliceWriteBits before sb).2 ++ after).length = c.inner.length ∧
        ((sliceWriteBits before sb).2 ++ after).drop c.pos = after) ∧
      (∀ sa : List Bool,
        (before ++ (sliceWriteBits after sa).2).length = c.inner.length ∧
        (before ++ (sliceWriteBits after sa).2).take c.pos = before) := by
  have hb : (c.inner.take c.pos).length = c.pos := by
    simp [List.length_take, Nat.min_eq_left h]
  refine ⟨c.inner.take c.pos, c.inner.drop c.pos,
    by simp [BitCursor.split_mut, h], rfl, rfl, hb, List.take_append_drop _ _, ?_, ?_⟩
  · intro sb
    have hl : ((sliceWriteBits (c.inner.take c.pos) sb).2).length = c.pos := by
      rw [sliceWriteBits_length, hb]
    constructor
    · simp [hl, List.length_drop]
      omega
    · exact List.drop_left' hl
  · intro sa
    have hl : ((sliceWriteBits (c.inner.drop c.pos) sa).2).length =
        c.inner.length - c.pos := by
      rw [sliceWriteBits_length, List.length_drop]
    constructor
    · simp [hb, hl]
      omega
    · exact List.take_left' hb

/-- Witness for C1 at a concrete cursor. -/
theorem split_mut_disjoint_witness :
    1 ≤ ([true, false, true] : List Bool).length ∧
      ∃ before after,
        (BitCursor.mk [true, false, true] 1).split_mut = some (before, after) ∧
        before = [true] ∧
        after = [false, true] ∧
        before.length = 1 ∧
        before ++ after = [true, false, true] ∧
        (∀ sb : List Bool,
          ((sliceWriteBits before sb).2 ++ after).length = 3 ∧
          ((sliceWriteBits before sb).2 ++ after).drop 1 = after) ∧
        (∀ sa : List Bool,
          (before ++ (sliceWriteBits after sa).2).length = 3 ∧
          (before ++ (sliceWriteBits after sa).2).take 1 = before) :=
  ⟨by decide, split_mut_disjoint (BitCursor.mk [true, false, true] 1) (by decide)⟩

/-- Window arithmetic shared by both `advance` implementations. -/
theorem window_drop (l : List Bool) (s len count : Nat) :
    (l.drop (s + count)).take (len - count) =
      ((l.drop s).take len).drop count := by
  rw [List.drop_take, List.drop_drop]

/-- C8: for both `Bits` and `BitsMut` and every `count ≤ remaining()`,
`advance(count)` decreases `remaining()` by exactly `count` and the
`chunk()` afterwards equals the `chunk()` before with its first `count`
bits removed. -/
theorem advance_window (b : Bits) (bm : BitsMut) (count : Nat)
    (h1 : count ≤ b.remaining) (h2 : count ≤ bm.remaining) :
    (∃ b', b.advance count = some b' ∧
      b'.remaining = b.remaining - count ∧
      b'.chunk = b.chunk.drop count) ∧
    (∃ bm', bm.advance count = some bm' ∧
      bm'.remaining = bm.remaining - count ∧
      bm'.chunk = bm.chunk.drop count) := by
  constructor
  · refine ⟨b.inc_start count, ?_, rfl, ?_⟩
    · simp [Bits.advance, h1]
    · simp only [Bits.chunk, Bits.inc_start]
      exact window_drop _ _ _ _
  · refine ⟨bm.advance_mut count, ?_, rfl, ?_⟩
    · simp [BitsMut.advance, h2]
    · simp only [BitsMut.chunk, BitsMut.advance_mut]
      exact window_drop _ _ _ _

/-- Witness for C8 on the repo's own test vector `0b11110000`. -/
theorem advance_window_witness :
    4 ≤ (Bits.mk [240] 0 8).remaining ∧
      4 ≤ (BitsMut.mk [240] 0 8).remaining ∧
      ((∃ b', (Bits.mk [240] 0 8).advance 4 = some b' ∧
        b'.remaining = (Bits.mk [240] 0 8).remaining - 4 ∧
        b'.chunk = (Bits.mk [240] 0 8).chunk.drop 4) ∧
      (∃ bm', (BitsMut.mk [240] 0 8).advance 4 = some bm' ∧
        bm'.remaining = (BitsMut.mk [240] 0 8).remaining - 4 ∧
        bm'.chunk = (BitsMut.mk [240] 0 8).chunk.drop 4)) :=
  ⟨by decide, by decide,
    advance_window (Bits.mk [240] 0 8) (BitsMut.mk [240] 0 8) 4 (by decide) (by decide)⟩

/-- C9: for both implementations, `advance(count)` with
`count > remaining()` hits the failed `assert!` (modelled by `none`,
the panic) — there is no recoverable error value in the return type. -/
theorem advance_past_end_aborts (b : Bits) (bm : BitsMut) (c1 c2 : Nat)
    (h1 : b.remaining < c1) (h2 : bm.remaining < c2) :
    b.advance c1 = none ∧ bm.advance c2 = none := by
  constructor
  · unfold Bits.advance
    rw [if_neg]
    omega
  · unfold BitsMut.advance
    rw [if_neg]
    omega

/-- Witness for C9: advancing a fully-consumed buffer by 9 of 8 bits. -/
theorem advance_past_end_aborts_witness :
    (Bits.mk [0] 0 8).remaining < 9 ∧
      (BitsMut.mk [0] 0 8).remaining < 9 ∧
      (Bits.mk [0] 0 8).advance 9 = none ∧
      (BitsMut.mk [0] 0 8).advance 9 = none :=
  ⟨by decide, by decide,
    (advance_past_end_aborts (Bits.mk [0] 0 8) (BitsMut.mk [0] 0 8) 9 9
      (by decide) (by decide)).1,
    (advance_past_end_aborts (Bits.mk [0] 0 8) (BitsMut.mk [0] 0 8) 9 9
      (by decide) (by decide)).2⟩

/-- Success case of the shared `Current`/`End` seek arm. -/
theorem bitSeekFrom_ok (c : BitCursor) (base : Nat) (off : Int)
    (h : 0 ≤ (base : Int) + off ∧ (base : Int) + off < 2 ^ 64) :
    bitSeekFrom c base off =
      (.ok ((base : Int) + off).toNat,
        { c with pos := ((base : Int) + off).toNat }) := by
  unfold bitSeekFrom checkedAddSigned
  rw [if_pos h]

/-- Failure case of the shared `Current`/`End` seek arm. -/
theorem bitSeekFrom_err (c : BitCursor) (base : Nat) (off : Int)
    (h : ¬(0 ≤ (base : Int) + off ∧ (base : Int) + off < 2 ^ 64)) :
    bitSeekFrom c base off = (.error .invalidInput, c) := by
  unfold bitSeekFrom checkedAddSigned
  rw [if_neg h]

/-- C4: `bit_seek` with `Current(n)` / `End(n)` computes `base + n` with
signed-overflow-checked addition (`base` = current position for `Current`,
total bit length for `End`); a negative or `u64`-overflowing result yields
an `InvalidInput` error with the cursor — hence `position()` — exactly
unchanged; otherwise the position is set to the result and returned. -/
theorem bit_seek_checked (c : BitCursor) (n : Int)
    (hpos : c.pos < 2 ^ 64) (hlen : c.inner.length < 2 ^ 64)
    (hlo : -(2 ^ 63) ≤ n) (hhi : n < 2 ^ 63) :
    (((c.pos : Int) + n < 0 ∨ 2 ^ 64 ≤ (c.pos : Int) + n) →
      c.bit_seek (.current n) = (.error .invalidInput, c)) ∧
    (0 ≤ (c.pos : Int) + n → (c.pos : Int) + n < 2 ^ 64 →
      c.bit_seek (.current n) =
        (.ok ((c.pos : Int) + n).toNat, { c with pos := ((c.pos : Int) + n).toNat })) ∧
    (((c.inner.length : Int) + n < 0 ∨ 2 ^ 64 ≤ (c.inner.length : Int) + n) →
      c.bit_seek (.fromEnd n) = (.error .invalidInput, c)) ∧
    (0 ≤ (c.inner.length : Int) + n → (c.inner.length : Int) + n < 2 ^ 64 →
      c.bit_seek (.fromEnd n) =
        (.ok ((c.inner.length : Int) + n).toNat,
          { c with pos := ((c.inner.length : Int) + n).toNat })) := by
  refine ⟨?_, ?_, ?_, ?_⟩
  · intro hbad
    have hc : ¬(0 ≤ (c.pos : Int) + n ∧ (c.pos : Int) + n < 2 ^ 64) := by omega
    show bitSeekFrom c c.pos n = _
    exact bitSeekFrom_err c c.pos n hc
  · intro h0 h1
    show bitSeekFrom c c.pos n = _
    exact bitSeekFrom_ok c c.pos n ⟨h0, h1⟩
  · intro hbad
    have hc : ¬(0 ≤ (c.inner.length : Int) + n ∧ (c.inner.length : Int) + n < 2 ^ 64) := by
      omega
    show bitSeekFrom c c.inner.length n = _
    exact bitSeekFrom_err c c.inner.length n hc
  · intro h0 h1
    show bitSeekFrom c c.inner.length n = _
    exact bitSeekFrom_ok c c.inner.length n ⟨h0, h1⟩

/-- Witness for C4 at position 3 over one byte with offset -1. -/
theorem bit_seek_checked_witness :
    (BitCursor.mk (bytesToBits [0]) 3).pos < 2 ^ 64 ∧
      (bytesToBits [0]).length < 2 ^ 64 ∧
      -(2 ^ 63) ≤ (-1 : Int) ∧
      (-1 : Int) < 2 ^ 63 ∧
      ((((3 : Int) + (-1) < 0 ∨ 2 ^ 64 ≤ (3 : Int) + (-1)) →
        (BitCursor.mk (bytesToBits [0]) 3).bit_seek (.current (-1)) =
          (.error .invalidInput, BitCursor.mk (bytesToBits [0]) 3)) ∧
      (0 ≤ (3 : Int) + (-1) → (3 : Int) + (-1) < 2 ^ 64 →
        (BitCursor.mk (bytesToBits [0]) 3).bit_seek (.current (-1)) =
          (.ok 2, BitCursor.mk (bytesToBits [0]) 2)) ∧
      (((8 : Int) + (-1) < 0 ∨ 2 ^ 64 ≤ (8 : Int) + (-1)) →
        (BitCursor.mk (bytesToBits [0]) 3).bit_seek (.fromEnd (-1)) =
          (.error .invalidInput, BitCursor.mk (bytesToBits [0]) 3)) ∧
      (0 ≤ (8 : Int) + (-1) → (8 : Int) + (-1) < 2 ^ 64 →
        (BitCursor.mk (bytesToBits [0]) 3).bit_seek (.fromEnd (-1)) =
          (.ok 7, BitCursor.mk (bytesToBits [0]) 7))) :=
  ⟨by decide, by decide, by decide, by decide,
    bit_seek_checked (BitCursor.mk (bytesToBits [0]) 3) (-1)
      (by decide) (by decide) (by decide) (by decide)⟩

/-- C5 counterexample: over the two-byte storage `[1, 2]`,
`seek(Start(1))` followed by `seek(Current(0))` returns 8 — the bit
position — not the byte position 1; `seek(End(0))` returns 16 — the bit
length — not the byte length 2. -/
theorem seek_byte_position_cex :
    (((BitCursor.new (bytesToBits [1, 2])).seek (.start 1)).2.seek (.current 0)).1 =
        .ok 8 ∧
      (((BitCursor.new (bytesToBits [1, 2])).seek (.start 1)).2.seek (.current 0)).1 ≠
        .ok 1 ∧
      ((BitCursor.new (bytesToBits [1, 2])).seek (.fromEnd 0)).1 = .ok 16 ∧
      ((BitCursor.new (bytesToBits [1, 2])).seek (.fromEnd 0)).1 ≠ .ok 2 :=
  ⟨by decide, by decide, by decide, by decide⟩

/-- C5 (amended): the byte-granularity `seek` scales its offset to bits
and returns the new absolute bit position (8 times the byte offset), not
the byte position: `seek(Start(n))` followed by `seek(Current(0))` returns
`8·n`, and `seek(End(0))` returns the storage's bit length (8 × its byte
length for byte-backed storage). -/
theorem seek_returns_bit_position (c : BitCursor) (n : Nat)
    (h1 : n * 8 < 2 ^ 64) (h2 : c.inner.length < 2 ^ 64) :
    (c.seek (.start n)).1 = .ok (n * 8) ∧
      ((c.seek (.start n)).2.seek (.current 0)).1 = .ok (n * 8) ∧
      (c.seek (.fromEnd 0)).1 = .ok c.inner.length := by
  refine ⟨rfl, ?_, ?_⟩
  · have hc : 0 ≤ ((n * 8 : Nat) : Int) + 0 * 8 ∧
        ((n * 8 : Nat) : Int) + 0 * 8 < 2 ^ 64 := by
      constructor <;> omega
    show (bitSeekFrom (BitCursor.mk c.inner (n * 8)) (n * 8) (0 * 8)).1 = _
    rw [bitSeekFrom_ok _ _ _ hc]
    show Except.ok (((n * 8 : Nat) : Int) + 0 * 8).toNat = Except.ok (n * 8)
    congr 1
  · have hc : 0 ≤ (c.inner.length : Int) + 0 * 8 ∧
        (c.inner.length : Int) + 0 * 8 < 2 ^ 64 := by
      constructor <;> omega
    show (bitSeekFrom c c.inner.length (0 * 8)).1 = _
    rw [bitSeekFrom_ok _ _ _ hc]
    show Except.ok ((c.inner.length : Int) + 0 * 8).toNat = Except.ok c.inner.length
    congr 1

/-- Witness for the amended C5 over the two-byte storage `[1, 2]`. -/
theorem seek_returns_bit_position_witness :
    1 * 8 < 2 ^ 64 ∧
      (bytesToBits [1, 2]).length < 2 ^ 64 ∧
      (((BitCursor.new (bytesToBits [1, 2])).seek (.start 1)).1 = .ok (1 * 8) ∧
        (((BitCursor.new (bytesToBits [1, 2])).seek (.start 1)).2.seek (.current 0)).1 =
          .ok (1 * 8) ∧
        ((BitCursor.new (bytesToBits [1, 2])).seek (.fromEnd 0)).1 =
          .ok (bytesToBits [1, 2]).length) :=
  ⟨by decide, by decide,
    seek_returns_bit_position (BitCursor.new (bytesToBits [1, 2])) 1
      (by decide) (by decide)⟩

/-- C6 counterexample: with one byte of storage and position 9 set past
the end via `set_position`, both `read` and `read_bits` hit the
out-of-range slice — a panic, modelled by `none` — instead of returning
`Ok(0)`. -/
theorem read_past_end_cex :
    ((BitCursor.new (bytesToBits [0])).set_position 9).read 1 = none ∧
      ((BitCursor.new (bytesToBits [0])).set_position 9).read_bits [false] = none :=
  ⟨by decide, by decide⟩

/-- C6 (amended): `read` and `read_bits` return `Ok(0)` and leave the
cursor unchanged when the position is exactly the storage's total bit
length; a position strictly beyond the end (reachable via `set_position`)
violates the slicing precondition and aborts (modelled by `none`) in
both. -/
theorem read_at_end (c : BitCursor) (bufLen : Nat) (dest : List Bool) :
    (c.pos = c.inner.length →
      c.read bufLen = some (0, [], c) ∧
      c.read_bits dest = some (0, dest, c)) ∧
    (c.inner.length < c.pos →
      c.read bufLen = none ∧ c.read_bits dest = none) := by
  constructor
  · intro h
    obtain ⟨i, p⟩ := c
    replace h : p = i.length := h
    subst h
    constructor
    · simp [BitCursor.read, List.drop_length, chunksOf8, chunksOf8Go]
    · simp [BitCursor.read_bits, BitCursor.split, sliceReadBits, List.drop_length]
  · intro h
    have hn : ¬ c.pos ≤ c.inner.length := by omega
    constructor
    · unfold BitCursor.read
      rw [if_neg hn]
    · unfold BitCursor.read_bits BitCursor.split
      rw [if_neg hn]

/-- Witness for the amended C6 with the position exactly at the end. -/
theorem read_at_end_witness :
    (BitCursor.mk (bytesToBits [7]) 8).pos = (bytesToBits [7]).length ∧
      ((BitCursor.mk (bytesToBits [7]) 8).read 1 =
        some (0, [], BitCursor.mk (bytesToBits [7]) 8) ∧
      (BitCursor.mk (bytesToBits [7]) 8).read_bits [false] =
        some (0, [false], BitCursor.mk (bytesToBits [7]) 8)) :=
  ⟨by decide,
    (read_at_end (BitCursor.mk (bytesToBits [7]) 8) 1 [false]).1 (by decide)⟩

/-- C3: for every storage, every bit sequence `s` and every starting bit
offset in `0..7` such that `s` fits in the remaining space, positioning at
the offset and calling `write_bits(s)` writes `|s|` bits, and
repositioning to the same offset and calling `read_bits` into a
destination of length `|s|` reads back exactly `s`. -/
theorem write_read_roundtrip (storage s : List Bool) (offset : Nat)
    (hoff : offset < 8) (hfit : offset + s.length ≤ storage.length) :
    (((BitCursor.new storage).set_position offset).write_bits s =
      some (s.length,
        BitCursor.mk (storage.take offset ++ (s ++ storage.drop (offset + s.length)))
          (offset + s.length))) ∧
    ∀ dest : List Bool, dest.length = s.length →
      ∃ c2,
        ((BitCursor.mk
            (storage.take offset ++ (s ++ storage.drop (offset + s.length)))
            (offset + s.length)).set_position offset).read_bits dest =
          some (s.length, s, c2) := by
  have hposle : offset ≤ storage.length := by omega
  have htk : (storage.take offset).length = offset := by
    simp [List.length_take, Nat.min_eq_left hposle]
  have hmin : min s.length (storage.drop offset).length = s.length := by
    rw [List.length_drop]
    omega
  constructor
  · simp only [BitCursor.new, BitCursor.set_position, BitCursor.write_bits,
      BitCursor.split_mut, sliceWriteBits]
    rw [if_pos hposle]
    simp only [Option.some.injEq, Prod.mk.injEq, BitCursor.mk.injEq]
    refine ⟨hmin, ?_, by rw [hmin]⟩
    rw [hmin, List.take_length, List.drop_drop]
  · intro dest hdest
    have hdp : (storage.take offset ++ (s ++ storage.drop (offset + s.length))).drop
        offset = s ++ storage.drop (offset + s.length) :=
      List.drop_left' htk
    have hmin2 : min dest.length (s ++ storage.drop (offset + s.length)).length =
        s.length := by
      rw [List.length_append, hdest]
      omega
    have hple2 : offset ≤
        (storage.take offset ++ (s ++ storage.drop (offset + s.length))).length := by
      rw [List.length_append, htk]
      omega
    have hts : (s ++ storage.drop (offset + s.length)).take s.length = s :=
      List.take_left' rfl
    have hdd : dest.drop s.length = [] := by
      rw [← hdest]
      exact List.drop_length _
    refine ⟨BitCursor.mk
      (storage.take offset ++ (s ++ storage.drop (offset + s.length)))
      (offset + s.length), ?_⟩
    simp only [BitCursor.set_position, BitCursor.read_bits, BitCursor.split,
      sliceReadBits, hple2, if_true, hdp, hmin2, hts, hdd, List.append_nil]

/-- Witness for C3: the spec's alignment scenario at offset 3, writing the
two-byte pattern `0xDE 0xAD` into four zero bytes. -/
theorem write_read_roundtrip_witness :
    3 < 8 ∧
      3 + (bytesToBits [222, 173]).length ≤ (bytesToBits [0, 0, 0, 0]).length ∧
      ((((BitCursor.new (bytesToBits [0, 0, 0, 0])).set_position 3).write_bits
          (bytesToBits [222, 173]) =
        some (16,
          BitCursor.mk
            ((bytesToBits [0, 0, 0, 0]).take 3 ++
              (bytesToBits [222, 173] ++ (bytesToBits [0, 0, 0, 0]).drop 19)) 19)) ∧
      ∀ dest : List Bool, dest.length = 16 →
        ∃ c2,
          ((BitCursor.mk
              ((bytesToBits [0, 0, 0, 0]).take 3 ++
                (bytesToBits [222, 173] ++ (bytesToBits [0, 0, 0, 0]).drop 19))
              19).set_position 3).read_bits dest =
            some (16, bytesToBits [222, 173], c2)) :=
  ⟨by decide, by decide,
    write_read_roundtrip (bytesToBits [0, 0, 0, 0]) (bytesToBits [222, 173]) 3
      (by decide) (by decide)⟩

/-- Bits already placed at positions above `7 - m` are untouched by the
packing loop when it continues from index `j0 > m`. -/
theorem packGo_untouched (chunk : List Bool) (j0 byte m : Nat)
    (hfit : j0 + chunk.length ≤ 8) (hm : m < j0) :
    Nat.testBit (packGo chunk j0 byte) (7 - m) = Nat.testBit byte (7 - m) := by
  induction chunk generalizing j0 byte with
  | nil => rfl
  | cons bit rest ih =>
    show Nat.testBit (packGo rest (j0 + 1)
      (if bit then byte ||| (1 <<< (7 - j0)) else byte)) (7 - m) = _
    rw [ih (j0 + 1) _ (by simp only [List.length_cons] at hfit; omega) (by omega)]
    cases bit
    · rfl
    · simp only [if_true]
      rw [Nat.testBit_or, Nat.one_shiftLeft,
        Nat.testBit_two_pow_of_ne
          (by simp only [List.length_cons] at hfit; omega : 7 - j0 ≠ 7 - m)]
      simp

/-- The packing loop sets bit `7 - m` of the output, for `m` at or past
the current index `j0`, exactly when the chunk's bit at `m - j0` is set
(a missing trailing bit contributes 0). -/
theorem packGo_testBit (chunk : List Bool) (j0 byte m : Nat)
    (hfit : j0 + chunk.length ≤ 8) (hm0 : j0 ≤ m) (hm : m < 8) :
    Nat.testBit (packGo chunk j0 byte) (7 - m) =
      (chunk.getD (m - j0) false || Nat.testBit byte (7 - m)) := by
  induction chunk generalizing j0 byte with
  | nil => simp [packGo]
  | cons bit rest ih =>
    show Nat.testBit (packGo rest (j0 + 1)
      (if bit then byte ||| (1 <<< (7 - j0)) else byte)) (7 - m) = _
    rcases Nat.eq_or_lt_of_le hm0 with heq | hlt
    · subst heq
      rw [packGo_untouched rest (j0 + 1) _ j0
        (by simp only [List.length_cons] at hfit; omega) (by omega)]
      cases bit
      · simp
      · simp only [if_true, Nat.sub_self, List.getD_cons_zero]
        rw [Nat.testBit_or, Nat.one_shiftLeft, Nat.testBit_two_pow_self]
        simp
    · rw [ih (j0 + 1) _ (by simp only [List.length_cons] at hfit; omega)
        (by omega)]
      have hidx : m - j0 = (m - (j0 + 1)) + 1 := by omega
      rw [hidx, List.getD_cons_succ]
      cases bit
      · rfl
      · simp only [if_true]
        rw [Nat.testBit_or, Nat.one_shiftLeft,
          Nat.testBit_two_pow_of_ne
            (by simp only [List.length_cons] at hfit; omega : 7 - j0 ≠ 7 - m)]
        simp

/-- Dropping then indexing shifts the index. -/
theorem getD_drop_add {α : Type} (l : List α) (k : Nat) :
    ∀ (j : Nat) (d : α), (l.drop k).getD j d = l.getD (k + j) d := by
  induction l generalizing k with
  | nil => intro j d; simp
  | cons a t ih =>
    intro j d
    cases k with
    | zero => simp
    | succ k =>
      show (t.drop k).getD j d = _
      rw [ih k j d]
      have hk : k + 1 + j = (k + j) + 1 := by omega
      rw [hk, List.getD_cons_succ]

/-- Indexing below the bound passes through `take`. -/
theorem getD_take_lt {α : Type} (l : List α) :
    ∀ (n j : Nat) (d : α), j < n → (l.take n).getD j d = l.getD j d := by
  induction l with
  | nil => intro n j d _; simp
  | cons a t ih =>
    intro n j d h
    cases n with
    | zero => omega
    | succ n =>
      cases j with
      | zero => rfl
      | succ j =>
        show (t.take n).getD j d = t.getD j d
        exact ih n j d (by omega)

/-- Indexing a mapped packing below the length evaluates the function at
the indexed chunk. -/
theorem getD_map_pack (l : List (List Bool)) :
    ∀ i : Nat, i < l.length → (l.map packChunk).getD i 0 = packChunk (l.getD i []) := by
  induction l with
  | nil => intro i h; simp at h
  | cons a t ih =>
    intro i h
    cases i with
    | zero => rfl
    | succ i =>
      show (t.map packChunk).getD i 0 = packChunk (t.getD i [])
      exact ih i (by simp at h; omega)

/-- Number of chunks produced by the fuelled chunk splitter. -/
theorem chunksOf8Go_length :
    ∀ (n : Nat) (l : List Bool), l.length ≤ n →
      (chunksOf8Go n l).length = (l.length + 7) / 8 := by
  intro n
  induction n with
  | zero =>
    intro l h
    have hl : l = [] := List.eq_nil_of_length_eq_zero (Nat.le_zero.mp h)
    subst hl
    rfl
  | succ n ih =>
    intro l h
    cases l with
    | nil => rfl
    | cons b rest =>
      show (chunksOf8Go n ((b :: rest).drop 8)).length + 1 = ((b :: rest).length + 7) / 8
      rw [ih _ (by simp only [List.length_drop, List.length_cons] at h ⊢; omega)]
      simp only [List.length_drop, List.length_cons]
      omega

/-- Number of chunks of `chunks(8)`. -/
theorem chunksOf8_length (l : List Bool) :
    (chunksOf8 l).length = (l.length + 7) / 8 :=
  chunksOf8Go_length l.length l (Nat.le_refl _)

/-- The `i`-th chunk of the fuelled chunk splitter. -/
theorem chunksOf8Go_getD :
    ∀ (i n : Nat) (l : List Bool), l.length ≤ n →
      (chunksOf8Go n l).getD i [] = (l.drop (8 * i)).take 8 := by
  intro i
  induction i with
  | zero =>
    intro n l h
    cases n with
    | zero =>
      have hl : l = [] := List.eq_nil_of_length_eq_zero (Nat.le_zero.mp h)
      subst hl
      rfl
    | succ n =>
      cases l with
      | nil => rfl
      | cons b rest => rfl
  | succ i ih =>
    intro n l h
    cases n with
    | zero =>
      have hl : l = [] := List.eq_nil_of_length_eq_zero (Nat.le_zero.mp h)
      subst hl
      rfl
    | succ n =>
      cases l with
      | nil =>
        show ([] : List (List Bool)).getD (i + 1) [] =
          (([] : List Bool).drop (8 * (i + 1))).take 8
        simp
      | cons b rest =>
        show (chunksOf8Go n ((b :: rest).drop 8)).getD i [] = _
        rw [ih n _ (by simp only [List.length_drop, List.length_cons] at h ⊢; omega)]
        rw [List.drop_drop]
        have he : 8 + 8 * i = 8 * (i + 1) := by omega
        rw [he]

/-- The `i`-th chunk of `chunks(8)`. -/
theorem chunksOf8_getD (l : List Bool) (i : Nat) :
    (chunksOf8 l).getD i [] = (l.drop (8 * i)).take 8 :=
  chunksOf8Go_getD i l.length l (Nat.le_refl _)

/-- C7: with the position within the storage's bit length, `read(buf)`
groups the bits from the position into successive 8-bit chunks (the last
possibly shorter), packs the first `min(buf.len(), number of chunks)`
chunks into bytes MSB-first — bit `j` of chunk `i` becomes bit `7 - j` of
byte `i`, missing trailing bits contributing 0 — returns that count, and
advances the position by exactly 8 times the count. -/
theorem read_packs_msb_first (c : BitCursor) (bufLen : Nat)
    (h : c.pos ≤ c.inner.length) :
    ∃ bytes c2, c.read bufLen = some (bytes.length, bytes, c2) ∧
      bytes.length = min bufLen ((c.inner.length - c.pos + 7) / 8) ∧
      c2.inner = c.inner ∧
      c2.pos = c.pos + 8 * bytes.length ∧
      (∀ i, i < bytes.length → ∀ j, j < 8 →
        Nat.testBit (bytes.getD i 0) (7 - j) =
          (c.inner.drop c.pos).getD (8 * i + j) false) := by
  unfold BitCursor.read
  rw [if_pos h]
  refine ⟨_, _, rfl, ?_, rfl, ?_, ?_⟩
  · rw [List.length_map, List.length_take, chunksOf8_length, List.length_drop]
  · rw [Nat.mul_comm]
  · intro i hi j hj
    rw [List.length_map] at hi
    have hib : i < bufLen := by
      rw [List.length_take] at hi
      omega
    rw [getD_map_pack _ _ hi, getD_take_lt _ _ _ _ hib, chunksOf8_getD]
    unfold packChunk
    rw [packGo_testBit _ 0 0 j
      (by simp only [Nat.zero_add, List.length_take]; omega)
      (Nat.zero_le j) hj]
    simp only [Nat.sub_zero, Nat.zero_testBit, Bool.or_false]
    rw [getD_take_lt _ _ _ _ hj, getD_drop_add]

/-- Witness for C7 on the repo's test bytes `0b11110000 0b00001111`. -/
theorem read_packs_msb_first_witness :
    (BitCursor.mk (bytesToBits [240, 15]) 0).pos ≤ (bytesToBits [240, 15]).length ∧
      ∃ bytes c2,
        (BitCursor.mk (bytesToBits [240, 15]) 0).read 2 =
          some (bytes.length, bytes, c2) ∧
        bytes.length = 2 ∧
        c2.inner = bytesToBits [240, 15] ∧
        c2.pos = 0 + 8 * bytes.length ∧
        (∀ i, i < bytes.length → ∀ j, j < 8 →
          Nat.testBit (bytes.getD i 0) (7 - j) =
            ((bytesToBits [240, 15]).drop 0).getD (8 * i + j) false) :=
  ⟨by decide,
    read_packs_msb_first (BitCursor.mk (bytesToBits [240, 15]) 0) 2 (by decide)⟩

/-- C10: when `read` consumes a final chunk of fewer than 8 bits (the
remaining bit count is not a multiple of 8 and the buffer is large enough
to reach it), the position still advances by a full 8 bits for that chunk,
so afterwards it strictly exceeds the storage's total bit length. -/
theorem read_partial_chunk_overshoots (c : BitCursor) (bufLen : Nat)
    (hpos : c.pos ≤ c.inner.length)
    (hmis : (c.inner.length - c.pos) % 8 ≠ 0)
    (hbuf : (c.inner.length - c.pos + 7) / 8 ≤ bufLen) :
    ∃ cnt bytes c2, c.read bufLen = some (cnt, bytes, c2) ∧
      c.inner.length < c2.pos := by
  unfold BitCursor.read
  rw [if_pos hpos]
  refine ⟨_, _, _, rfl, ?_⟩
  show c.inner.length <
    c.pos + (((chunksOf8 (c.inner.drop c.pos)).take bufLen).map packChunk).length * 8
  rw [List.length_map, List.length_take, chunksOf8_length, List.length_drop]
  omega

/-- Witness for C10: one byte read from bit position 4 overshoots. -/
theorem read_partial_chunk_overshoots_witness :
    (BitCursor.mk (bytesToBits [204]) 4).pos ≤ (bytesToBits [204]).length ∧
      ((bytesToBits [204]).length - 4) % 8 ≠ 0 ∧
      ((bytesToBits [204]).length - 4 + 7) / 8 ≤ 1 ∧
      ∃ cnt bytes c2,
        (BitCursor.mk (bytesToBits [204]) 4).read 1 = some (cnt, bytes, c2) ∧
        (bytesToBits [204]).length < c2.pos :=
  ⟨by decide, by decide, by decide,
    read_partial_chunk_overshoots (BitCursor.mk (bytesToBits [204]) 4) 1
      (by decide) (by decide) (by decide)⟩
